import Mathlib

/-!
Shallow embedding of the functional-dependency analyzer in
`sql/sql_func_dep.cc` (GROUP BY legality check: every SELECT-list and
HAVING column must be a grouping column or functionally dependent on the
grouping columns).

Per-table "Allowed-Sets" (the `tmp_set` bitmaps of the C++ code) are
modelled as a function from table index and column index to `Bool`.
Expression trees (`Item`) are modelled with the variants the analyzer
dispatches on: constants, column references (`Item_field`), reference
wrappers (`Item_ref`), and deterministic/non-deterministic function calls.
The two expression capabilities implemented outside this file's source
(`excl_func_dep_on_grouping_fields` and `excl_func_dep_from_equalities`,
from the expression subsystem) are modelled from the specification and
marked as such in their doc comments.
-/

/-- A column: the table it belongs to (index into the context's table
list) and its stable index into that table's Allowed-Set
(`field_index`). -/
structure Column where
  tbl : Nat
  idx : Nat
deriving DecidableEq

/-- A key (`KEY`): its user-defined parts as column indices of its own
table, and whether it is flagged unique (`HA_NOSAME`). -/
structure Key where
  unique : Bool
  parts : List Nat
deriving DecidableEq

/-- A table: column count, optional primary key, the `key_info` list,
and whether it is a materialized derived table or view. -/
structure Table where
  numCols : Nat
  primaryKey : Option Key
  keys : List Key
  isMatDerived : Bool

/-- The table metadata and the leaf-table list of the current query
block (`sl->leaf_tables`). -/
structure Ctx where
  tables : List Table
  leafTables : List Nat

def defaultTable : Table := ⟨0, none, [], false⟩

def Ctx.tableOf (ctx : Ctx) (t : Nat) : Table := ctx.tables.getD t defaultTable

def Ctx.nCols (ctx : Ctx) (t : Nat) : Nat := (ctx.tableOf t).numCols

/-- The Allowed-Set store: per table index, a bit per column index
(the `tmp_set` bitmap of each `TABLE`). -/
abbrev AllowedState := Nat → Nat → Bool

/-- The source's `bitmap_set_bit(&fld->table->tmp_set, fld->field_index)`. -/
def setBit (st : AllowedState) (c : Column) : AllowedState :=
  fun t i => if t = c.tbl ∧ i = c.idx then true else st t i

/-- The source's `bitmap_set_all(&tbl->table->tmp_set)`. -/
def setAllTbl (st : AllowedState) (t0 : Nat) : AllowedState :=
  fun t i => if t = t0 then true else st t i

/-- The source's `bitmap_clear_all(&tbl->table->tmp_set)`. -/
def clearTbl (st : AllowedState) (t0 : Nat) : AllowedState :=
  fun t i => if t = t0 then false else st t i

/-- The source's `bitmap_is_set_all` over a table with `nc` columns. -/
def isSetAllT (nc : Nat) (st : AllowedState) (t : Nat) : Bool :=
  (List.range nc).all (fun i => st t i)

/-- The source's `bitmap_is_clear_all` over a table with `nc` columns. -/
def isClearAllT (nc : Nat) (st : AllowedState) (t : Nat) : Bool :=
  (List.range nc).all (fun i => !st t i)

/-- Pointwise growth of Allowed-Sets: every bit set in `a` is set in
`b`. -/
def stLe (a b : AllowedState) : Prop :=
  ∀ t i, a t i = true → b t i = true

/-- Expression nodes the analyzer dispatches on: constants, bare column
references (`Item_field`, with display name, comparison-type tag and a
flag marking an outer-scope reference that is forbidden in this
context), reference wrappers (`Item_ref`), and zero- or two-argument
function calls (`Item_func`, carrying `is_deterministic` and a
comparison-type tag). -/
inductive Item where
  | constI (cmp : Nat)
  | fieldI (c : Column) (name : String) (cmp : Nat) (forbidden : Bool)
  | refI (inner : Item)
  | func0 (det : Bool) (cmp : Nat) (name : String)
  | func2 (det : Bool) (cmp : Nat) (a1 a2 : Item) (name : String)
deriving DecidableEq

/-- The source's `Item::real_item()`: strip reference wrappers. -/
def Item.real : Item → Item
  | .refI i => i.real
  | .constI cmp => .constI cmp
  | .fieldI c n cmp f => .fieldI c n cmp f
  | .func0 d cmp n => .func0 d cmp n
  | .func2 d cmp a b n => .func2 d cmp a b n

/-- The source's `Item::type_handler_for_comparison()`, modelled as a numeric tag. -/
def Item.cmpTypeHandler : Item → Nat
  | .constI cmp => cmp
  | .fieldI _ _ cmp _ => cmp
  | .refI i => i.cmpTypeHandler
  | .func0 _ cmp _ => cmp
  | .func2 _ cmp _ _ _ => cmp

/-- The guard `item->type() == Item::FUNC_ITEM && !((Item_func *)item)->is_deterministic`. -/
def Item.isNondetFunc : Item → Bool
  | .func0 det _ _ => !det
  | .func2 det _ _ _ _ => !det
  | _ => false

/-- The source's `item_arg->real_item()->full_name()`: the display name used in the
error message. -/
def Item.fullName : Item → String
  | .constI _ => ""
  | .fieldI _ n _ _ => n
  | .refI i => i.fullName
  | .func0 _ _ n => n
  | .func2 _ _ _ _ n => n

/-- The column of `it.real` when the real item is a bare column
reference (`real_item()->type() == Item::FIELD_ITEM`). -/
def Item.realField? (it : Item) : Option Column :=
  match it.real with
  | .fieldI c _ _ _ => some c
  | _ => none

/-- An equality predicate (`Item_func_eq`): its own declared comparison
type (`compare_type_handler()`) and its two argument items. -/
structure EqItem where
  cmp : Nat
  lhs : Item
  rhs : Item
deriving DecidableEq

/-- The source's `Item_equal_fd_info`: a deferred equality together with the column
sets collected from its left and right sides at defer time. -/
structure EqInfo where
  eq : EqItem
  fieldsL : List Column
  fieldsR : List Column
deriving DecidableEq

/-- The single error kind of the analyzer
(`ER_NON_GROUPING_FIELD_USED`): the offending expression's display name
and the clause name. -/
structure FdError where
  name : String
  clause : String
deriving DecidableEq

/-- A top-level conjunct of the WHERE clause: either an equality
(`FUNC_ITEM` with `EQ_FUNC`) or any other predicate item. -/
inductive Conj where
  | ceq (e : EqItem)
  | cother (it : Item)
deriving DecidableEq

/-- The WHERE clause shape the analyzer dispatches on: a top-level
AND-conjunction (`COND_ITEM` with `COND_AND_FUNC`) or a single
predicate. -/
inductive WhereCond where
  | wAnd (cs : List Conj)
  | wSingle (c : Conj)
deriving DecidableEq

def WhereCond.conjuncts : WhereCond → List Conj
  | .wAnd cs => cs
  | .wSingle c => [c]

/-- Outer query block information used by the analyzer:
`outer_select()->join` presence and the outer block's leaf tables. -/
structure OuterCtx where
  hasJoin : Bool
  leafTables : List Nat

/-- The fields of `st_select_lex` the analyzer reads. -/
structure SelectBlock where
  groupList : List Item
  selectList : List Item
  having : Option Item
  whereCond : Option WhereCond
  outer : Option OuterCtx
  unitItem : Bool
  selectNumber : Nat

/-- Modelled from the spec: the Field-level form of capability (a),
`Field::excl_func_dep_on_grouping_fields` (implemented in the
expression subsystem, not in the given source): a bare field passes
exactly when its Allowed-Set bit is set. -/
def fieldAllowed (st : AllowedState) (t i : Nat) : Bool := st t i

/-- The source's `are_key_fields_allowed`: all user-defined parts of the key are
allowed fields. -/
def areKeyFieldsAllowed (st : AllowedState) (t : Nat) (k : Key) : Bool :=
  k.parts.all (fun i => fieldAllowed st t i)

/-- One table's step of `check_allowed_unique_keys`: skip a table whose
Allowed-Set is already full; otherwise if the primary key's fields are
all allowed, or else some unique key's fields are all allowed, mark the
whole table allowed and record that fields were extracted. -/
def processTableKeys (ctx : Ctx) (acc : Bool × AllowedState) (t : Nat) :
    Bool × AllowedState :=
  let tbl := ctx.tableOf t
  let st := acc.2
  if isSetAllT tbl.numCols st t then acc
  else
    let pkHit :=
      match tbl.primaryKey with
      | some pk => areKeyFieldsAllowed st t pk
      | none => false
    if pkHit then (true, setAllTbl st t)
    else if tbl.keys.any (fun k => k.unique && areKeyFieldsAllowed st t k) then
      (true, setAllTbl st t)
    else acc

/-- The source's `check_allowed_unique_keys`: Key Closure over the leaf tables.
Returns whether any new allowed fields were extracted, and the new
state. -/
def checkAllowedUniqueKeys (ctx : Ctx) (st : AllowedState) :
    Bool × AllowedState :=
  ctx.leafTables.foldl (processTableKeys ctx) (false, st)

/-- One pending table's step of `check_allowed_materialized_derived`:
keep a derived table with no allowed field pending, otherwise mark it
fully allowed and drop it. -/
def mdStep (ctx : Ctx) (acc : List Nat × AllowedState) (t : Nat) :
    List Nat × AllowedState :=
  if isClearAllT (ctx.nCols t) acc.2 t then (acc.1 ++ [t], acc.2)
  else (acc.1, setAllTbl acc.2 t)

/-- The source's `check_allowed_materialized_derived`: for each pending materialized
derived table with any allowed field, mark it fully allowed and drop it
from the pending list.  Returns whether the pending list shrank, the
new pending list, and the new state. -/
def checkAllowedMatDerived (ctx : Ctx) (md : List Nat) (st : AllowedState) :
    Bool × List Nat × AllowedState :=
  if md.isEmpty then (false, md, st)
  else
    let p := md.foldl (mdStep ctx) ([], st)
    (p.1.length != md.length, p.1, p.2)

/-- The column marked by a grouping expression that is a bare column
reference, or a reference wrapper whose real item is one
(`ord_item->type() == FIELD_ITEM`, or `REF_ITEM` with
`real_item()->type() == FIELD_ITEM`). -/
def gbFieldOf : Item → Option Column
  | .fieldI c _ _ _ => some c
  | .refI i =>
    match i.real with
    | .fieldI c _ _ _ => some c
    | _ => none
  | _ => none

/-- One grouping expression's step of `collect_gb_fields`: mark a bare
column reference allowed, collect any other expression. -/
def gbMark (acc : AllowedState × List Item) (it : Item) :
    AllowedState × List Item :=
  match gbFieldOf it with
  | some c => (setBit acc.1 c, acc.2)
  | none => (acc.1, acc.2 ++ [it])

/-- The source's `collect_gb_fields`: if the GROUP BY list is empty, return at once;
otherwise mark each column-reference grouping expression's column
allowed, collect non-column grouping expressions, then run Key Closure
once and Derived-Table Closure once.  Returns the new state, the new
pending derived-table list and the collected non-column grouping
items. -/
def collectGbFields (ctx : Ctx) (blk : SelectBlock) (st : AllowedState)
    (md : List Nat) : AllowedState × List Nat × List Item :=
  if blk.groupList.isEmpty then (st, md, [])
  else
    let p := blk.groupList.foldl gbMark (st, [])
    let k := checkAllowedUniqueKeys ctx p.1
    let m := checkAllowedMatDerived ctx md k.2
    (m.2.2, m.2.1, p.2)

/-- Modelled from the spec: capability (b),
`Item::excl_func_dep_from_equalities` (implemented in the expression
subsystem, not in the given source).  Decides whether the expression is
closed over allowed columns and constants (a non-deterministic call is
never closed), collects the bare column references it is built from,
and reports a forbidden outer-scope field as the offending item. -/
def exclFromEqualities (st : AllowedState) : Item → Bool × List Column × Option Item
  | .constI _ => (true, [], none)
  | .fieldI c n cmp forb =>
    if forb then (false, [], some (.fieldI c n cmp forb))
    else (fieldAllowed st c.tbl c.idx, [c], none)
  | .refI i => exclFromEqualities st i
  | .func0 det _ _ => (det, [], none)
  | .func2 det _ a b _ =>
    let ra := exclFromEqualities st a
    let rb := exclFromEqualities st b
    (det && ra.1 && rb.1, ra.2.1 ++ rb.2.1, ra.2.2 <|> rb.2.2)

/-- Modelled from the spec: capability (a),
`Item::excl_func_dep_on_grouping_fields` (implemented in the expression
subsystem, not in the given source).  An expression passes when every
node is a constant, an allowed column, or matches a grouping
expression; on failure the first offending sub-expression is
returned. -/
def exclOnGrouping (st : AllowedState) (gb : List Item) : Item → Option Item
  | .constI _ => none
  | .fieldI c n cmp forb =>
    if gb.contains (.fieldI c n cmp forb) then none
    else if forb || !fieldAllowed st c.tbl c.idx then
      some (.fieldI c n cmp forb)
    else none
  | .refI i =>
    if gb.contains (.refI i) then none
    else exclOnGrouping st gb i
  | .func0 _ _ _ => none
  | .func2 d cm a b n =>
    if gb.contains (.func2 d cm a b n) then none
    else
      match exclOnGrouping st gb a with
      | some x => some x
      | none => exclOnGrouping st gb b

/-- The source's `extract_new_func_dep_field`: given the equality's comparison type,
the dependent part `dp` and the candidate part `nd`, mark `nd`'s column
allowed when `nd`'s real item is a bare column reference, `dp`'s
comparison type handler equals the equality's, and the column is not
already allowed; a column of a materialized derived table marks the
whole derived table allowed.  (The source checks
`nd_part->real_item()->type()` but then reads the field through a cast
of `nd_part` itself; the embedding reads the real item's column, the
only well-defined reading, which coincides whenever `nd_part` is the
field item.) -/
def extractNewFuncDepField (ctx : Ctx) (eqCmp : Nat) (dp nd : Item)
    (st : AllowedState) : Bool × AllowedState :=
  match nd.realField? with
  | none => (false, st)
  | some c =>
    if dp.cmpTypeHandler != eqCmp then (false, st)
    else if st c.tbl c.idx then (false, st)
    else
      let st1 := setBit st c
      if (ctx.tableOf c.tbl).isMatDerived then (true, setAllTbl st1 c.tbl)
      else (true, st1)

/-- The source's `check_equality_on_new_func_dep`: classify the two sides of an
equality and either discard it, report a WHERE-clause violation, defer
it with its collected column sets, or extract a new allowed field from
the open side. -/
def checkEqualityOnNewFuncDep (ctx : Ctx) (e : EqItem) (st : AllowedState)
    (eqItems : List EqInfo) : Except FdError (AllowedState × List EqInfo) :=
  if e.lhs.isNondetFunc || e.rhs.isNondetFunc then .ok (st, eqItems)
  else
    let rl := exclFromEqualities st e.lhs
    if !rl.1 && rl.2.1.isEmpty then
      match rl.2.2 with
      | some a => .error ⟨a.real.fullName, "WHERE clause"⟩
      | none => .ok (st, eqItems)
    else
      let rr := exclFromEqualities st e.rhs
      let argC := rr.2.2 <|> rl.2.2
      if (rl.1 && rr.1) || (!rr.1 && rr.2.1.isEmpty) ||
         (rl.2.1.length != 1 && rr.2.1.length != 1) then
        match argC with
        | some a => .error ⟨a.real.fullName, "WHERE clause"⟩
        | none => .ok (st, eqItems)
      else if !rl.1 && !rr.1 then
        .ok (st, eqItems ++ [⟨e, rl.2.1, rr.2.1⟩])
      else if rl.1 then
        .ok ((extractNewFuncDepField ctx e.cmp e.lhs e.rhs st).2, eqItems)
      else
        .ok ((extractNewFuncDepField ctx e.cmp e.rhs e.lhs st).2, eqItems)

/-- Processing of one top-level WHERE conjunct in stage 1 of
`check_where_and_get_new_dependencies`: an equality goes through
`check_equality_on_new_func_dep` (and is counted), any other predicate
is checked through capability (b) and reports a WHERE-clause violation
when it yields an offending item. -/
def processConj (ctx : Ctx) (acc : AllowedState × List EqInfo × Nat)
    (c : Conj) : Except FdError (AllowedState × List EqInfo × Nat) :=
  match c with
  | .ceq e =>
    match checkEqualityOnNewFuncDep ctx e acc.1 acc.2.1 with
    | .error er => .error er
    | .ok r => .ok (r.1, r.2, acc.2.2 + 1)
  | .cother it =>
    let r := exclFromEqualities acc.1 it
    if !r.1 then
      match r.2.2 with
      | some a => .error ⟨a.real.fullName, "WHERE clause"⟩
      | none => .ok acc
    else .ok acc

/-- All fields of a stored column set are allowed (the re-evaluation of
one side of a deferred equality inside the fixed-point loop). -/
def colsAllowed (st : AllowedState) (l : List Column) : Bool :=
  l.all (fun c => fieldAllowed st c.tbl c.idx)

/-- One deferred equality's step inside a round of the fixed-point
loop: an equality with neither stored side satisfied is kept for later
rounds; one with both sides satisfied is dropped without extraction;
one with exactly one side satisfied gets an extraction attempt with
that side as the dependent part and is dropped regardless of the
outcome. -/
def fdStep (ctx : Ctx) (acc : AllowedState × List EqInfo × Bool)
    (e : EqInfo) : AllowedState × List EqInfo × Bool :=
  let st := acc.1
  let depL := colsAllowed st e.fieldsL
  let depR := colsAllowed st e.fieldsR
  if !depL && !depR then (st, acc.2.1 ++ [e], acc.2.2)
  else if depL && depR then (st, acc.2.1, acc.2.2)
  else if depL then
    let r := extractNewFuncDepField ctx e.eq.cmp e.eq.lhs e.eq.rhs st
    (r.2, acc.2.1, acc.2.2 || r.1)
  else
    let r := extractNewFuncDepField ctx e.eq.cmp e.eq.rhs e.eq.lhs st
    (r.2, acc.2.1, acc.2.2 || r.1)

/-- One round of the fixed-point loop of
`check_where_and_get_new_dependencies`: process every worklist entry,
then, when no extraction succeeded or the worklist emptied, run Key
Closure once and fold its progress into the round's progress flag. -/
def fdRound (ctx : Ctx) (st : AllowedState) (wl : List EqInfo) :
    AllowedState × List EqInfo × Bool :=
  let p := wl.foldl (fdStep ctx) (st, ([], false))
  if !p.2.2 || p.2.1.isEmpty then
    let k := checkAllowedUniqueKeys ctx p.1
    (k.2, p.2.1, p.2.2 || k.1)
  else p

/-- The fixed-point loop (`while (extracted && !eq_items.is_empty())`),
with explicit fuel.  The second component records a clean exit: `true`
when the loop left through its own guard, `false` only when the fuel
ran out while the guard still held. -/
def fdLoop (ctx : Ctx) : Nat → AllowedState → List EqInfo → Bool →
    AllowedState × Bool
  | 0, st, wl, ext => (st, !ext || wl.isEmpty)
  | fuel + 1, st, wl, ext =>
    if ext && !wl.isEmpty then
      let r := fdRound ctx st wl
      fdLoop ctx fuel r.1 r.2.1 r.2.2
    else (st, true)

/-- The number of allowed bits inside the declared column ranges. -/
def tblBits (st : AllowedState) (nc t : Nat) : Nat :=
  ((Finset.range nc).filter (fun i => st t i = true)).card

/-- Total count of set Allowed-Set bits over all declared tables. -/
def countBits (ctx : Ctx) (st : AllowedState) : Nat :=
  (Finset.range ctx.tables.length).sum (fun t => tblBits st (ctx.nCols t) t)

/-- Total Allowed-Set capacity over all declared tables; the fuel bound
of the fixed-point loop. -/
def totalBits (ctx : Ctx) : Nat :=
  (Finset.range ctx.tables.length).sum (fun t => ctx.nCols t)

/-- The source's `check_where_and_get_new_dependencies`: stage 1 processes every
top-level conjunct; if no equality was deferred, Key Closure runs once
more; if every equality was deferred, stop; otherwise run the
fixed-point loop. -/
def checkWhereAndGetNewDependencies (ctx : Ctx) (blk : SelectBlock)
    (st : AllowedState) : Except FdError AllowedState :=
  match blk.whereCond with
  | none => .ok st
  | some cond =>
    match cond.conjuncts.foldlM (processConj ctx) (st, ([], 0)) with
    | .error e => .error e
    | .ok p =>
      if p.2.1.isEmpty then .ok (checkAllowedUniqueKeys ctx p.1).2
      else if p.2.2 == p.2.1.length then .ok p.1
      else .ok (fdLoop ctx (totalBits ctx + 1) p.1 p.2.1 true).1

/-- The source's `are_select_list_fields_allowed`: the first SELECT-list expression
with an offending sub-expression raises the violation naming the
clause "SELECT list". -/
def areSelectListFieldsAllowed (st : AllowedState) (gb : List Item)
    (items : List Item) : Option FdError :=
  match items.findSome? (exclOnGrouping st gb) with
  | some off => some ⟨off.real.fullName, "SELECT list"⟩
  | none => none

/-- The source's `are_having_fields_allowed`: a HAVING expression with an offending
sub-expression raises the violation naming the clause "HAVING
clause". -/
def areHavingFieldsAllowed (st : AllowedState) (hav : Option Item)
    (gb : List Item) : Option FdError :=
  match hav with
  | none => none
  | some h =>
    match exclOnGrouping st gb h with
    | some off => some ⟨off.real.fullName, "HAVING clause"⟩
    | none => none

/-- The Validator: SELECT list first, then HAVING only when the SELECT
list passed. -/
def validateBlock (st : AllowedState) (gb : List Item) (sel : List Item)
    (hav : Option Item) : Option FdError :=
  match areSelectListFieldsAllowed st gb sel with
  | some er => some er
  | none => areHavingFieldsAllowed st hav gb

/-- The source's `set_update_table_fields`: when the block's unit has an owning item
and the outer select exists with no join (the UPDATE special case),
mark all fields of the outer leaf tables allowed. -/
def setUpdateTableFields (blk : SelectBlock) (st : AllowedState) :
    AllowedState :=
  match blk.outer with
  | some o =>
    if blk.unitItem && !o.hasJoin then o.leafTables.foldl setAllTbl st
    else st
  | none => st

def UINT_MAX_N : Nat := 4294967295

def INT_MAX_N : Nat := 2147483647

def outerHasJoin (blk : SelectBlock) : Bool :=
  match blk.outer with
  | some o => o.hasJoin
  | none => false

/-- The flag `need_check` of `st_select_lex::check_func_dep`. -/
def needCheckB (blk : SelectBlock) : Bool :=
  !blk.groupList.isEmpty || outerHasJoin blk || blk.having.isSome

/-- The pending materialized derived tables collected while clearing
the leaf tables' Allowed-Sets. -/
def matDerivedOf (ctx : Ctx) : List Nat :=
  ctx.leafTables.filter (fun t => (ctx.tableOf t).isMatDerived)

/-- The part of `st_select_lex::check_func_dep` after the trivial
cases: Group-By Collector, Equality Closure, then the Validator
(SELECT list before HAVING). -/
def checkFuncDepRest (ctx : Ctx) (blk : SelectBlock) (st : AllowedState)
    (md : List Nat) : Except FdError AllowedState :=
  let g := collectGbFields ctx blk st md
  match checkWhereAndGetNewDependencies ctx blk g.1 with
  | .error e => .error e
  | .ok st5 =>
    match validateBlock st5 g.2.2 blk.selectList blk.having with
    | some er => .error er
    | none => .ok st5

/-- The source's `st_select_lex::check_func_dep`: skip blocks without leaf tables
and fake blocks; clear the leaf tables' Allowed-Sets and collect the
pending materialized derived tables; apply the UPDATE special case;
with no GROUP BY and no HAVING mark every leaf table fully allowed and
stop unless the block needs outer-reference validation; otherwise run
the closure phases and the Validator.  (The subquery-context tagging of
the source does not touch the Allowed-Sets and is not modelled.) -/
def checkFuncDep (ctx : Ctx) (blk : SelectBlock) (st0 : AllowedState) :
    Except FdError AllowedState :=
  if ctx.leafTables.isEmpty || blk.selectNumber == UINT_MAX_N ||
     blk.selectNumber == INT_MAX_N then .ok st0
  else
    let st1 := ctx.leafTables.foldl clearTbl st0
    let md := matDerivedOf ctx
    let st2 := setUpdateTableFields blk st1
    if blk.groupList.isEmpty && blk.having.isNone then
      let st3 := ctx.leafTables.foldl setAllTbl st2
      if !needCheckB blk then .ok st3
      else checkFuncDepRest ctx blk st3 md
    else checkFuncDepRest ctx blk st2 md

/-- Extract the bit of a table column from a successful analysis
result; `false` on an error result. -/
def okBit (r : Except FdError AllowedState) (t i : Nat) : Bool :=
  match r with
  | .ok s => s t i
  | .error _ => false

/-- All field nodes of an expression carry columns inside the declared
table and column ranges. -/
def itemColsOk (ctx : Ctx) : Item → Bool
  | .constI _ => true
  | .fieldI c _ _ _ => c.tbl < ctx.tables.length && c.idx < ctx.nCols c.tbl
  | .refI i => itemColsOk ctx i
  | .func0 _ _ _ => true
  | .func2 _ _ a b _ => itemColsOk ctx a && itemColsOk ctx b

/-- Well-formed worklist: the stored equalities mention only columns
inside the declared ranges. -/
def wfWl (ctx : Ctx) (wl : List EqInfo) : Bool :=
  wl.all (fun e => itemColsOk ctx e.eq.lhs && itemColsOk ctx e.eq.rhs)

/-- Well-formed leaf-table list: every leaf table is a declared
table. -/
def wfLeaves (ctx : Ctx) : Bool :=
  ctx.leafTables.all (fun t => t < ctx.tables.length)

/-! ### Concrete instances used by witnesses and counterexamples -/

/-- State with no allowed bit. -/
def stAllFalse : AllowedState := fun _ _ => false

/-- State where only column 0 of table 0 is allowed. -/
def stOne : AllowedState := fun t i => t == 0 && i == 0

/-- State where every column of table 0 is allowed. -/
def stT0 : AllowedState := fun t _ => t == 0

/-- Column `a` of table 0. -/
def aF : Item := .fieldI ⟨0, 0⟩ "a" 5 false

/-- Column `b` of table 1. -/
def bF : Item := .fieldI ⟨1, 0⟩ "b" 5 false

/-- Column `c` of table 1. -/
def cF : Item := .fieldI ⟨1, 1⟩ "c" 5 false

/-- A non-deterministic zero-argument call (`RAND()`). -/
def randF : Item := .func0 false 5 "rand"

/-- A deterministic call whose second argument is `RAND()`:
`a + RAND()`. -/
def plusF : Item := .func2 true 5 aF randF "plus"

/-- The equality `c = a`. -/
def eqCA : EqItem := ⟨5, cF, aF⟩

/-- The equality `b = a + RAND()`: its right side contains a
non-deterministic call below its top node. -/
def eqBR : EqItem := ⟨5, bF, plusF⟩

/-- Two tables: table 0 with one column, table 1 with two columns, no
keys, none derived. -/
def ctx4 : Ctx := ⟨[⟨1, none, [], false⟩, ⟨2, none, [], false⟩], [0, 1]⟩

/-- Only column `a` (table 0, column 0) allowed, as after collecting
`GROUP BY a`. -/
def st4 : AllowedState := fun t i => t == 0 && i == 0

/-- Block whose WHERE clause is `c = a AND b = a + RAND()`. -/
def blk4 : SelectBlock :=
  ⟨[], [], none, some (.wAnd [.ceq eqCA, .ceq eqBR]), none, false, 1⟩

/-- The same block with the second equality removed. -/
def blk4b : SelectBlock :=
  ⟨[], [], none, some (.wAnd [.ceq eqCA]), none, false, 1⟩

/-- One table with two columns and no keys. -/
def ctx5 : Ctx := ⟨[⟨2, none, [], false⟩], [0]⟩

/-- A deferred equality whose stored sides are columns 0 and 1 of
table 0. -/
def e5 : EqInfo :=
  ⟨⟨5, .fieldI ⟨0, 0⟩ "x" 5 false, .fieldI ⟨0, 1⟩ "y" 5 false⟩,
   [⟨0, 0⟩], [⟨0, 1⟩]⟩

/-- Table 0 with three columns and a unique key on columns 0 and 1;
table 1 with two columns and no keys. -/
def ctx6 : Ctx :=
  ⟨[⟨3, none, [⟨true, [0, 1]⟩], false⟩, ⟨2, none, [], false⟩], [0, 1]⟩

/-- Columns 0 and 1 of table 0 allowed (the unique key is covered, the
third column is not yet allowed). -/
def st6 : AllowedState := fun t i => t == 0 && (i == 0 || i == 1)

/-- A deferred equality over the two (not allowed) columns of
table 1. -/
def e6 : EqInfo :=
  ⟨⟨5, .fieldI ⟨1, 0⟩ "x" 5 false, .fieldI ⟨1, 1⟩ "y" 5 false⟩,
   [⟨1, 0⟩], [⟨1, 1⟩]⟩

/-- One table with two columns and a unique key on column 0. -/
def ctx9 : Ctx := ⟨[⟨2, none, [⟨true, [0]⟩], false⟩], [0]⟩

/-- Block with an empty GROUP BY list. -/
def blk9 : SelectBlock := ⟨[], [], none, none, none, false, 1⟩

/-- One table with two columns, no keys, not derived. -/
def ctxW : Ctx := ⟨[⟨2, none, [], false⟩], [0]⟩

/-- A block with no GROUP BY, no HAVING, no WHERE and no outer
block. -/
def blkW : SelectBlock := ⟨[], [], none, none, none, false, 1⟩

/-- Column `a` of table 0 and column `b` of the same table. -/
def aW : Item := .fieldI ⟨0, 0⟩ "a" 5 false

/-- Column `b` of table 0 (the second column). -/
def bW : Item := .fieldI ⟨0, 1⟩ "b" 5 false

/-- A table with a unique key on its first column. -/
def ctxC2 : Ctx := ⟨[⟨2, some ⟨true, [0]⟩, [⟨true, [0]⟩], false⟩], [0]⟩

/-- Block computing `SELECT b FROM t GROUP BY a` over `ctxW`:
`b` is not functionally dependent on `a`. -/
def blkW8 : SelectBlock := ⟨[aW], [bW], none, none, none, false, 1⟩

/-- Block with `GROUP BY a` only. -/
def blkW9 : SelectBlock := ⟨[aW], [], none, none, none, false, 1⟩

/-- The equality `b = RAND()` (its right side is a non-deterministic
call at its top node). -/
def eqBRand : EqItem := ⟨5, bF, randF⟩

/-! ### Basic lemmas about the Allowed-Set store -/

theorem stLe_refl (a : AllowedState) : stLe a a := fun _ _ h => h

theorem stLe_trans {a b c : AllowedState} (h1 : stLe a b) (h2 : stLe b c) :
    stLe a c := fun t i h => h2 t i (h1 t i h)

theorem stLe_setBit (st : AllowedState) (c : Column) : stLe st (setBit st c) := by
  intro t i h
  simp only [setBit]
  split <;> simp [h]

theorem setBit_self (st : AllowedState) (c : Column) :
    setBit st c c.tbl c.idx = true := by
  simp [setBit]

theorem stLe_setAllTbl (st : AllowedState) (t0 : Nat) :
    stLe st (setAllTbl st t0) := by
  intro t i h
  simp only [setAllTbl]
  split <;> simp [h]

theorem setAllTbl_self (st : AllowedState) (t0 i : Nat) :
    setAllTbl st t0 t0 i = true := by
  simp [setAllTbl]

theorem stLe_foldl_setAllTbl (l : List Nat) (st : AllowedState) :
    stLe st (l.foldl setAllTbl st) := by
  induction l generalizing st with
  | nil => exact stLe_refl st
  | cons x xs ih =>
    exact stLe_trans (stLe_setAllTbl st x) (ih (setAllTbl st x))

theorem foldl_setAllTbl_mem {l : List Nat} {t : Nat} (ht : t ∈ l)
    (st : AllowedState) (i : Nat) : l.foldl setAllTbl st t i = true := by
  induction l generalizing st with
  | nil => cases ht
  | cons x xs ih =>
    rcases List.mem_cons.mp ht with h | h
    · subst h
      exact stLe_foldl_setAllTbl xs (setAllTbl st t) t i (setAllTbl_self st t i)
    · exact ih h (setAllTbl st x)

theorem fieldAllowed_mono {a b : AllowedState} (h : stLe a b) {t i : Nat}
    (hf : fieldAllowed a t i = true) : fieldAllowed b t i = true :=
  h t i hf

theorem areKeyFieldsAllowed_mono {a b : AllowedState} (h : stLe a b)
    {t : Nat} {k : Key} (hk : areKeyFieldsAllowed a t k = true) :
    areKeyFieldsAllowed b t k = true := by
  simp only [areKeyFieldsAllowed, List.all_eq_true] at hk ⊢
  exact fun i hi => h t i (hk i hi)

theorem colsAllowed_mono {a b : AllowedState} (h : stLe a b)
    {l : List Column} (hl : colsAllowed a l = true) :
    colsAllowed b l = true := by
  simp only [colsAllowed, List.all_eq_true] at hl ⊢
  exact fun c hc => h c.tbl c.idx (hl c hc)

theorem isSetAllT_mono {a b : AllowedState} (h : stLe a b) {nc t : Nat}
    (hs : isSetAllT nc a t = true) : isSetAllT nc b t = true := by
  simp only [isSetAllT, List.all_eq_true] at hs ⊢
  exact fun i hi => h t i (hs i hi)

/-! ### Key Closure lemmas -/

theorem isSetAllT_true_bits {nc t : Nat} {st : AllowedState}
    (h : isSetAllT nc st t = true) : ∀ i, i < nc → st t i = true := by
  simp only [isSetAllT, List.all_eq_true, List.mem_range] at h
  exact fun i hi => h i hi

theorem isSetAllT_false_exists {nc t : Nat} {st : AllowedState}
    (h : isSetAllT nc st t = false) : ∃ i, i < nc ∧ st t i = false := by
  simp only [isSetAllT, List.all_eq_false, List.mem_range] at h
  obtain ⟨i, hi, hb⟩ := h
  exact ⟨i, hi, by simpa using hb⟩

/-- The condition of the claim about Key Closure: the table's primary
key consists of allowed fields, or some unique key does. -/
def keyHit (ctx : Ctx) (st : AllowedState) (t : Nat) : Bool :=
  (match (ctx.tableOf t).primaryKey with
   | some pk => areKeyFieldsAllowed st t pk
   | none => false) ||
  (ctx.tableOf t).keys.any (fun k => k.unique && areKeyFieldsAllowed st t k)

theorem keyHit_mono {a b : AllowedState} (h : stLe a b) {ctx : Ctx} {t : Nat}
    (hk : keyHit ctx a t = true) : keyHit ctx b t = true := by
  simp only [keyHit, Bool.or_eq_true, List.any_eq_true, Bool.and_eq_true] at hk ⊢
  rcases hk with hk | ⟨k, hkm, hu, hka⟩
  · left
    cases hpk : (ctx.tableOf t).primaryKey with
    | none => simp [hpk] at hk
    | some pk => simp only [hpk] at hk ⊢; exact areKeyFieldsAllowed_mono h hk
  · exact Or.inr ⟨k, hkm, hu, areKeyFieldsAllowed_mono h hka⟩

theorem processTableKeys_stLe (ctx : Ctx) (acc : Bool × AllowedState) (t : Nat) :
    stLe acc.2 (processTableKeys ctx acc t).2 := by
  simp only [processTableKeys]
  split
  · exact stLe_refl _
  · split
    · exact stLe_setAllTbl _ _
    · split
      · exact stLe_setAllTbl _ _
      · exact stLe_refl _

theorem processTableKeys_false_eq {ctx : Ctx} {acc : Bool × AllowedState} {t : Nat}
    (h : (processTableKeys ctx acc t).1 = false) :
    processTableKeys ctx acc t = acc := by
  simp only [processTableKeys] at h ⊢
  split_ifs at h ⊢ <;> simp_all

theorem processTableKeys_flag_mono {ctx : Ctx} {acc : Bool × AllowedState} {t : Nat}
    (h : acc.1 = true) : (processTableKeys ctx acc t).1 = true := by
  simp only [processTableKeys]
  split_ifs <;> simp [h]

theorem foldl_ptk_stLe (ctx : Ctx) (l : List Nat) (acc : Bool × AllowedState) :
    stLe acc.2 (l.foldl (processTableKeys ctx) acc).2 := by
  induction l generalizing acc with
  | nil => exact stLe_refl _
  | cons x xs ih =>
    exact stLe_trans (processTableKeys_stLe ctx acc x) (ih (processTableKeys ctx acc x))

theorem checkAllowedUniqueKeys_stLe (ctx : Ctx) (st : AllowedState) :
    stLe st (checkAllowedUniqueKeys ctx st).2 :=
  foldl_ptk_stLe ctx ctx.leafTables (false, st)

theorem foldl_ptk_false_eq {ctx : Ctx} {l : List Nat} {acc : Bool × AllowedState}
    (h : (l.foldl (processTableKeys ctx) acc).1 = false) :
    l.foldl (processTableKeys ctx) acc = acc := by
  induction l generalizing acc with
  | nil => rfl
  | cons x xs ih =>
    have h1 : (xs.foldl (processTableKeys ctx) (processTableKeys ctx acc x)).1 = false := h
    have h2 := ih h1
    have h3 : (processTableKeys ctx acc x).1 = false := by
      rw [List.foldl_cons, h2] at h
      exact h
    rw [List.foldl_cons, h2, processTableKeys_false_eq h3]

theorem checkKeys_false_eq {ctx : Ctx} {st : AllowedState}
    (h : (checkAllowedUniqueKeys ctx st).1 = false) :
    (checkAllowedUniqueKeys ctx st).2 = st := by
  have := @foldl_ptk_false_eq ctx ctx.leafTables (false, st) h
  unfold checkAllowedUniqueKeys
  rw [this]

theorem processTableKeys_new_flag {ctx : Ctx} {acc : Bool × AllowedState} {t : Nat}
    (hf : acc.1 = false) (h : (processTableKeys ctx acc t).1 = true) :
    isSetAllT (ctx.tableOf t).numCols acc.2 t = false ∧
    (processTableKeys ctx acc t).2 = setAllTbl acc.2 t := by
  simp only [processTableKeys] at h ⊢
  split_ifs at h ⊢ <;> simp_all

theorem foldl_ptk_progress {ctx : Ctx} (l : List Nat) (acc : Bool × AllowedState)
    (h : (l.foldl (processTableKeys ctx) acc).1 = true) :
    acc.1 = true ∨
    ∃ t, t ∈ l ∧ ∃ i, i < ctx.nCols t ∧ acc.2 t i = false ∧
      (l.foldl (processTableKeys ctx) acc).2 t i = true := by
  induction l generalizing acc with
  | nil => exact Or.inl h
  | cons x xs ih =>
    rw [List.foldl_cons] at h
    rcases ih (processTableKeys ctx acc x) h with hflag | ⟨t, htm, i, hi, hfalse, htrue⟩
    · by_cases hacc : acc.1 = true
      · exact Or.inl hacc
      · have hacc' : acc.1 = false := by simpa using hacc
        obtain ⟨hns, heq⟩ := processTableKeys_new_flag hacc' hflag
        obtain ⟨i, hi, hbit⟩ := isSetAllT_false_exists hns
        refine Or.inr ⟨x, List.mem_cons_self x xs, i, hi, hbit, ?_⟩
        have : (processTableKeys ctx acc x).2 x i = true := by
          rw [heq]; exact setAllTbl_self _ _ _
        exact foldl_ptk_stLe ctx xs (processTableKeys ctx acc x) x i this
    · refine Or.inr ⟨t, List.mem_cons_of_mem x htm, i, hi, ?_, htrue⟩
      by_contra hne
      have : acc.2 t i = true := by simpa using hne
      have := processTableKeys_stLe ctx acc x t i this
      rw [this] at hfalse
      cases hfalse

theorem checkKeys_progress {ctx : Ctx} {st : AllowedState}
    (h : (checkAllowedUniqueKeys ctx st).1 = true) :
    ∃ t, t ∈ ctx.leafTables ∧ ∃ i, i < ctx.nCols t ∧ st t i = false ∧
      (checkAllowedUniqueKeys ctx st).2 t i = true := by
  rcases foldl_ptk_progress ctx.leafTables (false, st) h with hf | hex
  · cases hf
  · exact hex

theorem processTableKeys_complete {ctx : Ctx} {acc : Bool × AllowedState} {t : Nat}
    (hk : keyHit ctx acc.2 t = true) :
    ∀ i, i < ctx.nCols t → (processTableKeys ctx acc t).2 t i = true := by
  intro i hi
  simp only [processTableKeys]
  split_ifs with h1 h2 h3
  · exact isSetAllT_true_bits h1 i hi
  · exact setAllTbl_self _ _ _
  · exact setAllTbl_self _ _ _
  · exfalso
    simp only [keyHit, Bool.or_eq_true] at hk
    rcases hk with hk | hk
    · exact h2 hk
    · exact h3 hk

theorem foldl_ptk_complete {ctx : Ctx} {st : AllowedState} (l : List Nat)
    (acc : Bool × AllowedState) {t : Nat} (htm : t ∈ l)
    (hle : stLe st acc.2) (hk : keyHit ctx st t = true) :
    ∀ i, i < ctx.nCols t → (l.foldl (processTableKeys ctx) acc).2 t i = true := by
  induction l generalizing acc with
  | nil => cases htm
  | cons x xs ih =>
    intro i hi
    rw [List.foldl_cons]
    rcases List.mem_cons.mp htm with hx | hx
    · subst hx
      have hcomp := @processTableKeys_complete ctx acc t
        (keyHit_mono hle hk) i hi
      exact foldl_ptk_stLe ctx xs (processTableKeys ctx acc t) t i hcomp
    · exact ih (processTableKeys ctx acc x) hx
        (stLe_trans hle (processTableKeys_stLe ctx acc x)) i hi

theorem checkKeys_complete {ctx : Ctx} {st : AllowedState} {t : Nat}
    (htm : t ∈ ctx.leafTables) (hk : keyHit ctx st t = true) :
    ∀ i, i < ctx.nCols t → (checkAllowedUniqueKeys ctx st).2 t i = true :=
  foldl_ptk_complete ctx.leafTables (false, st) htm (stLe_refl st) hk

/-! ### Derived-Table Closure and Group-By Collector lemmas -/

theorem foldl_md_stLe (ctx : Ctx) (l : List Nat) (acc : List Nat × AllowedState) :
    stLe acc.2 (l.foldl (mdStep ctx) acc).2 := by
  induction l generalizing acc with
  | nil => exact stLe_refl _
  | cons x xs ih =>
    refine stLe_trans ?_ (ih _)
    simp only [mdStep]
    split
    · exact stLe_refl _
    · exact stLe_setAllTbl _ _

theorem checkAllowedMatDerived_stLe (ctx : Ctx) (md : List Nat) (st : AllowedState) :
    stLe st (checkAllowedMatDerived ctx md st).2.2 := by
  simp only [checkAllowedMatDerived]
  split
  · exact stLe_refl _
  · exact foldl_md_stLe ctx md ([], st)

theorem foldl_gbmark_stLe (l : List Item) (acc : AllowedState × List Item) :
    stLe acc.1 (l.foldl gbMark acc).1 := by
  induction l generalizing acc with
  | nil => exact stLe_refl _
  | cons x xs ih =>
    refine stLe_trans ?_ (ih _)
    simp only [gbMark]
    split
    · exact stLe_setBit _ _
    · exact stLe_refl _

theorem collectGbFields_stLe (ctx : Ctx) (blk : SelectBlock) (st : AllowedState)
    (md : List Nat) : stLe st (collectGbFields ctx blk st md).1 := by
  simp only [collectGbFields]
  split
  · exact stLe_refl _
  · refine stLe_trans (foldl_gbmark_stLe blk.groupList (st, [])) ?_
    refine stLe_trans (checkAllowedUniqueKeys_stLe ctx _) ?_
    exact checkAllowedMatDerived_stLe ctx md _

/-! ### Extraction lemmas -/

theorem extract_stLe (ctx : Ctx) (eqCmp : Nat) (dp nd : Item) (st : AllowedState) :
    stLe st (extractNewFuncDepField ctx eqCmp dp nd st).2 := by
  simp only [extractNewFuncDepField]
  split
  · exact stLe_refl _
  · split_ifs
    · exact stLe_refl _
    · exact stLe_refl _
    · exact stLe_trans (stLe_setBit _ _) (stLe_setAllTbl _ _)
    · exact stLe_setBit _ _

theorem extract_true_elim {ctx : Ctx} {eqCmp : Nat} {dp nd : Item}
    {st : AllowedState}
    (h : (extractNewFuncDepField ctx eqCmp dp nd st).1 = true) :
    ∃ c, nd.realField? = some c ∧ dp.cmpTypeHandler = eqCmp ∧
      st c.tbl c.idx = false ∧
      (extractNewFuncDepField ctx eqCmp dp nd st).2 c.tbl c.idx = true := by
  rcases hx : nd.realField? with _ | c
  · simp [extractNewFuncDepField, hx] at h
  · simp only [extractNewFuncDepField, hx] at h ⊢
    refine ⟨c, rfl, ?_⟩
    split_ifs at h with h1 h2 h3
    · refine ⟨by simpa using h1, by simpa using h2, ?_⟩
      simp only [if_neg h1, if_neg h2, if_pos h3]
      exact stLe_setAllTbl _ _ _ _ (setBit_self st c)
    · refine ⟨by simpa using h1, by simpa using h2, ?_⟩
      simp only [if_neg h1, if_neg h2, if_neg h3]
      exact setBit_self st c

theorem extract_false_frame {ctx : Ctx} {eqCmp : Nat} {dp nd : Item}
    {st : AllowedState}
    (h : (extractNewFuncDepField ctx eqCmp dp nd st).1 = false) :
    (extractNewFuncDepField ctx eqCmp dp nd st).2 = st := by
  rcases hx : nd.realField? with _ | c
  · simp [extractNewFuncDepField, hx]
  · simp only [extractNewFuncDepField, hx] at h ⊢
    split_ifs at h ⊢ <;> simp_all

/-! ### Equality-processing lemmas -/

theorem checkEquality_ok_stLe {ctx : Ctx} {e : EqItem} {st : AllowedState}
    {eqs : List EqInfo} {out : AllowedState × List EqInfo}
    (h : checkEqualityOnNewFuncDep ctx e st eqs = .ok out) : stLe st out.1 := by
  simp only [checkEqualityOnNewFuncDep] at h
  split_ifs at h with h1 h2 h3 h4 h5
  · cases h; exact stLe_refl _
  · split at h
    · cases h
    · cases h; exact stLe_refl _
  · split at h
    · cases h
    · cases h; exact stLe_refl _
  · cases h; exact stLe_refl _
  · cases h; exact extract_stLe ctx e.cmp e.lhs e.rhs st
  · cases h; exact extract_stLe ctx e.cmp e.rhs e.lhs st

theorem checkEquality_error_clause {ctx : Ctx} {e : EqItem} {st : AllowedState}
    {eqs : List EqInfo} {er : FdError}
    (h : checkEqualityOnNewFuncDep ctx e st eqs = .error er) :
    er.clause = "WHERE clause" := by
  simp only [checkEqualityOnNewFuncDep] at h
  split_ifs at h <;>
    first
      | cases h
      | (split at h
         · cases h; rfl
         · cases h)

theorem processConj_ok_stLe {ctx : Ctx} {acc out : AllowedState × List EqInfo × Nat}
    {c : Conj} (h : processConj ctx acc c = .ok out) : stLe acc.1 out.1 := by
  cases c with
  | ceq e =>
    simp only [processConj] at h
    cases heq : checkEqualityOnNewFuncDep ctx e acc.1 acc.2.1 with
    | error er => rw [heq] at h; cases h
    | ok r =>
      rw [heq] at h
      cases h
      exact checkEquality_ok_stLe heq
  | cother it =>
    simp only [processConj] at h
    split_ifs at h
    · split at h
      · cases h
      · cases h; exact stLe_refl _
    · cases h; exact stLe_refl _

theorem processConj_error_clause {ctx : Ctx} {acc : AllowedState × List EqInfo × Nat}
    {c : Conj} {er : FdError} (h : processConj ctx acc c = .error er) :
    er.clause = "WHERE clause" := by
  cases c with
  | ceq e =>
    simp only [processConj] at h
    cases heq : checkEqualityOnNewFuncDep ctx e acc.1 acc.2.1 with
    | error er2 =>
      rw [heq] at h
      cases h
      exact checkEquality_error_clause heq
    | ok r => rw [heq] at h; cases h
  | cother it =>
    simp only [processConj] at h
    split_ifs at h
    split at h
    · cases h; rfl
    · cases h

theorem whereFold_ok_stLe {ctx : Ctx} (l : List Conj)
    (acc out : AllowedState × List EqInfo × Nat)
    (h : l.foldlM (processConj ctx) acc = .ok out) : stLe acc.1 out.1 := by
  induction l generalizing acc with
  | nil =>
    simp only [List.foldlM_nil] at h
    cases h
    exact stLe_refl _
  | cons x xs ih =>
    simp only [List.foldlM_cons] at h
    cases hx : processConj ctx acc x with
    | error er => rw [hx] at h; cases h
    | ok r =>
      rw [hx] at h
      exact stLe_trans (processConj_ok_stLe hx) (ih r h)

theorem whereFold_error_clause {ctx : Ctx} (l : List Conj)
    (acc : AllowedState × List EqInfo × Nat) {er : FdError}
    (h : l.foldlM (processConj ctx) acc = .error er) :
    er.clause = "WHERE clause" := by
  induction l generalizing acc with
  | nil => simp only [List.foldlM_nil] at h; cases h
  | cons x xs ih =>
    simp only [List.foldlM_cons] at h
    cases hx : processConj ctx acc x with
    | error er2 =>
      rw [hx] at h
      cases h
      exact processConj_error_clause hx
    | ok r =>
      rw [hx] at h
      exact ih r h

/-! ### Fixed-point loop lemmas -/

theorem fdStep_stLe (ctx : Ctx) (acc : AllowedState × List EqInfo × Bool)
    (e : EqInfo) : stLe acc.1 (fdStep ctx acc e).1 := by
  simp only [fdStep]
  split_ifs
  · exact stLe_refl _
  · exact stLe_refl _
  · exact extract_stLe ctx e.eq.cmp e.eq.lhs e.eq.rhs acc.1
  · exact extract_stLe ctx e.eq.cmp e.eq.rhs e.eq.lhs acc.1

theorem fdStep_kept (ctx : Ctx) (acc : AllowedState × List EqInfo × Bool)
    (e : EqInfo) :
    (fdStep ctx acc e).2.1 = acc.2.1 ∨ (fdStep ctx acc e).2.1 = acc.2.1 ++ [e] := by
  simp only [fdStep]
  split_ifs
  · exact Or.inr rfl
  · exact Or.inl rfl
  · exact Or.inl rfl
  · exact Or.inl rfl

theorem fdFold_stLe (ctx : Ctx) (wl : List EqInfo)
    (acc : AllowedState × List EqInfo × Bool) :
    stLe acc.1 (wl.foldl (fdStep ctx) acc).1 := by
  induction wl generalizing acc with
  | nil => exact stLe_refl _
  | cons x xs ih =>
    exact stLe_trans (fdStep_stLe ctx acc x) (ih (fdStep ctx acc x))

theorem fdFold_kept_mem (ctx : Ctx) (wl : List EqInfo)
    (acc : AllowedState × List EqInfo × Bool) {x : EqInfo}
    (hx : x ∈ (wl.foldl (fdStep ctx) acc).2.1) : x ∈ acc.2.1 ∨ x ∈ wl := by
  induction wl generalizing acc with
  | nil => exact Or.inl hx
  | cons y ys ih =>
    rw [List.foldl_cons] at hx
    rcases ih (fdStep ctx acc y) hx with hm | hm
    · rcases fdStep_kept ctx acc y with hk | hk
      · rw [hk] at hm; exact Or.inl hm
      · rw [hk] at hm
        rcases List.mem_append.mp hm with hm | hm
        · exact Or.inl hm
        · simp only [List.mem_singleton] at hm
          exact Or.inr (by simp [hm])
    · exact Or.inr (List.mem_cons_of_mem y hm)

theorem fdRound_stLe (ctx : Ctx) (st : AllowedState) (wl : List EqInfo) :
    stLe st (fdRound ctx st wl).1 := by
  simp only [fdRound]
  split
  · exact stLe_trans (fdFold_stLe ctx wl (st, ([], false)))
      (checkAllowedUniqueKeys_stLe ctx _)
  · exact fdFold_stLe ctx wl (st, ([], false))

theorem fdRound_wl_mem (ctx : Ctx) (st : AllowedState) (wl : List EqInfo)
    {x : EqInfo} (hx : x ∈ (fdRound ctx st wl).2.1) : x ∈ wl := by
  simp only [fdRound] at hx
  split at hx
  · rcases fdFold_kept_mem ctx wl (st, ([], false)) hx with hm | hm
    · cases hm
    · exact hm
  · rcases fdFold_kept_mem ctx wl (st, ([], false)) hx with hm | hm
    · cases hm
    · exact hm

theorem fdLoop_false (ctx : Ctx) (f : Nat) (st : AllowedState)
    (wl : List EqInfo) : fdLoop ctx f st wl false = (st, true) := by
  cases f with
  | zero => simp [fdLoop]
  | succ n => simp [fdLoop]

theorem fdLoop_stLe (ctx : Ctx) (f : Nat) (st : AllowedState)
    (wl : List EqInfo) (ext : Bool) : stLe st (fdLoop ctx f st wl ext).1 := by
  induction f generalizing st wl ext with
  | zero => exact stLe_refl _
  | succ n ih =>
    simp only [fdLoop]
    split
    · exact stLe_trans (fdRound_stLe ctx st wl) (ih _ _ _)
    · exact stLe_refl _

/-! ### Counting allowed bits -/

theorem tblBits_mono {a b : AllowedState} (h : stLe a b) (nc t : Nat) :
    tblBits a nc t ≤ tblBits b nc t := by
  apply Finset.card_le_card
  intro i hi
  simp only [tblBits, Finset.mem_filter, Finset.mem_range] at hi ⊢
  exact ⟨hi.1, h t i hi.2⟩

theorem countBits_mono {a b : AllowedState} (ctx : Ctx) (h : stLe a b) :
    countBits ctx a ≤ countBits ctx b := by
  apply Finset.sum_le_sum
  intro t _
  exact tblBits_mono h _ t

theorem tblBits_lt {a b : AllowedState} (h : stLe a b) {nc t i : Nat}
    (hi : i < nc) (hfa : a t i = false) (hfb : b t i = true) :
    tblBits a nc t < tblBits b nc t := by
  apply Finset.card_lt_card
  constructor
  · intro j hj
    simp only [tblBits, Finset.mem_filter, Finset.mem_range] at hj ⊢
    exact ⟨hj.1, h t j hj.2⟩
  · intro hsub
    have hmem : i ∈ (Finset.range nc).filter (fun j => b t j = true) := by
      simp only [Finset.mem_filter, Finset.mem_range]
      exact ⟨hi, hfb⟩
    have := hsub hmem
    simp only [Finset.mem_filter, Finset.mem_range] at this
    rw [this.2] at hfa
    cases hfa

theorem countBits_lt {a b : AllowedState} (ctx : Ctx) (h : stLe a b)
    {t i : Nat} (ht : t < ctx.tables.length) (hi : i < ctx.nCols t)
    (hfa : a t i = false) (hfb : b t i = true) :
    countBits ctx a < countBits ctx b := by
  apply Finset.sum_lt_sum
  · intro j _
    exact tblBits_mono h _ j
  · exact ⟨t, Finset.mem_range.mpr ht, tblBits_lt h hi hfa hfb⟩

theorem tblBits_le_nc (st : AllowedState) (nc t : Nat) : tblBits st nc t ≤ nc := by
  calc tblBits st nc t ≤ (Finset.range nc).card := Finset.card_filter_le _ _
  _ = nc := Finset.card_range nc

theorem countBits_le_total (ctx : Ctx) (st : AllowedState) :
    countBits ctx st ≤ totalBits ctx := by
  apply Finset.sum_le_sum
  intro t _
  exact tblBits_le_nc st (ctx.nCols t) t

/-! ### Strict progress of the fixed-point loop -/

theorem itemColsOk_real {ctx : Ctx} : ∀ {it : Item},
    itemColsOk ctx it = true → itemColsOk ctx it.real = true
  | .constI _, h => h
  | .fieldI _ _ _ _, h => h
  | .refI i, h => @itemColsOk_real ctx i h
  | .func0 _ _ _, h => h
  | .func2 _ _ _ _ _, h => h

theorem realField_ranges {ctx : Ctx} {nd : Item} {c : Column}
    (hok : itemColsOk ctx nd = true) (hf : nd.realField? = some c) :
    c.tbl < ctx.tables.length ∧ c.idx < ctx.nCols c.tbl := by
  have hro := @itemColsOk_real ctx nd hok
  unfold Item.realField? at hf
  cases hr : nd.real with
  | fieldI c2 n cmp f =>
    rw [hr] at hf hro
    cases hf
    simpa [itemColsOk] using hro
  | constI cmp => rw [hr] at hf; cases hf
  | refI i =>
    exfalso
    cases nd <;> simp [Item.real] at hr
    · rename_i inner
      have : ∀ j : Item, j.real ≠ .refI i := by
        intro j
        induction j <;> simp [Item.real]
        assumption
      exact this inner hr
  | func0 d cmp n => rw [hr] at hf; cases hf
  | func2 d cmp a b n => rw [hr] at hf; cases hf

theorem extract_strict {ctx : Ctx} {eqCmp : Nat} {dp nd : Item}
    {st : AllowedState} (hok : itemColsOk ctx nd = true)
    (h : (extractNewFuncDepField ctx eqCmp dp nd st).1 = true) :
    countBits ctx st < countBits ctx (extractNewFuncDepField ctx eqCmp dp nd st).2 := by
  obtain ⟨c, hf, _, hfalse, htrue⟩ := extract_true_elim h
  obtain ⟨ht, hi⟩ := realField_ranges hok hf
  exact countBits_lt ctx (extract_stLe ctx eqCmp dp nd st) ht hi hfalse htrue

theorem checkKeys_strict {ctx : Ctx} {st : AllowedState}
    (hwf : wfLeaves ctx = true)
    (h : (checkAllowedUniqueKeys ctx st).1 = true) :
    countBits ctx st < countBits ctx (checkAllowedUniqueKeys ctx st).2 := by
  obtain ⟨t, htm, i, hi, hfalse, htrue⟩ := checkKeys_progress h
  have ht : t < ctx.tables.length := by
    simp only [wfLeaves, List.all_eq_true] at hwf
    simpa using hwf t htm
  exact countBits_lt ctx (checkAllowedUniqueKeys_stLe ctx st) ht hi hfalse htrue

/-- Well-formedness of one worklist entry. -/
def wfEntry (ctx : Ctx) (e : EqInfo) : Bool :=
  itemColsOk ctx e.eq.lhs && itemColsOk ctx e.eq.rhs

theorem fdStep_flag {ctx : Ctx} {acc : AllowedState × List EqInfo × Bool}
    {e : EqInfo} (hwf : wfEntry ctx e = true)
    (h : (fdStep ctx acc e).2.2 = true) :
    acc.2.2 = true ∨ countBits ctx acc.1 < countBits ctx (fdStep ctx acc e).1 := by
  simp only [wfEntry, Bool.and_eq_true] at hwf
  simp only [fdStep] at h ⊢
  split_ifs at h ⊢
  · exact Or.inl h
  · exact Or.inl h
  · rcases Bool.or_eq_true_iff.mp h with h | h
    · exact Or.inl h
    · exact Or.inr (extract_strict hwf.2 h)
  · rcases Bool.or_eq_true_iff.mp h with h | h
    · exact Or.inl h
    · exact Or.inr (extract_strict hwf.1 h)

theorem fdFold_flag {ctx : Ctx} (wl : List EqInfo)
    (acc : AllowedState × List EqInfo × Bool)
    (hwf : wl.all (wfEntry ctx) = true)
    (h : (wl.foldl (fdStep ctx) acc).2.2 = true) :
    acc.2.2 = true ∨
      countBits ctx acc.1 < countBits ctx (wl.foldl (fdStep ctx) acc).1 := by
  induction wl generalizing acc with
  | nil => exact Or.inl h
  | cons y ys ih =>
    simp only [List.all_cons, Bool.and_eq_true] at hwf
    rw [List.foldl_cons] at h ⊢
    rcases ih (fdStep ctx acc y) hwf.2 h with hflag | hstrict
    · rcases fdStep_flag hwf.1 hflag with hl | hs
      · exact Or.inl hl
      · refine Or.inr (lt_of_lt_of_le hs ?_)
        exact countBits_mono ctx (fdFold_stLe ctx ys (fdStep ctx acc y))
    · refine Or.inr (lt_of_le_of_lt ?_ hstrict)
      exact countBits_mono ctx (fdStep_stLe ctx acc y)

theorem fdRound_strict {ctx : Ctx} {st : AllowedState} {wl : List EqInfo}
    (hwfl : wfLeaves ctx = true) (hwf : wl.all (wfEntry ctx) = true)
    (h : (fdRound ctx st wl).2.2 = true) :
    countBits ctx st < countBits ctx (fdRound ctx st wl).1 := by
  simp only [fdRound] at h ⊢
  split_ifs at h ⊢ with hc
  · rcases Bool.or_eq_true_iff.mp h with hp | hk
    · rcases fdFold_flag wl (st, ([], false)) hwf hp with hl | hs
      · cases hl
      · refine lt_of_lt_of_le hs ?_
        exact countBits_mono ctx (checkAllowedUniqueKeys_stLe ctx _)
    · refine lt_of_le_of_lt ?_ (checkKeys_strict hwfl hk)
      exact countBits_mono ctx (fdFold_stLe ctx wl (st, ([], false)))
  · rcases fdFold_flag wl (st, ([], false)) hwf h with hl | hs
    · cases hl
    · exact hs

theorem fdRound_wf {ctx : Ctx} {st : AllowedState} {wl : List EqInfo}
    (hwf : wl.all (wfEntry ctx) = true) :
    (fdRound ctx st wl).2.1.all (wfEntry ctx) = true := by
  simp only [List.all_eq_true] at hwf ⊢
  intro e he
  exact hwf e (fdRound_wl_mem ctx st wl he)

theorem fdLoop_clean {ctx : Ctx} (fuel : Nat) (st : AllowedState)
    (wl : List EqInfo) (hwfl : wfLeaves ctx = true)
    (hwf : wl.all (wfEntry ctx) = true)
    (hfuel : totalBits ctx < fuel + countBits ctx st) :
    (fdLoop ctx fuel st wl true).2 = true := by
  induction fuel generalizing st wl with
  | zero =>
    exfalso
    have := countBits_le_total ctx st
    omega
  | succ n ih =>
    simp only [fdLoop]
    split
    · cases hext : (fdRound ctx st wl).2.2 with
      | false => simp [fdLoop_false]
      | true =>
        have hstrict := fdRound_strict hwfl hwf hext
        exact ih (fdRound ctx st wl).1 (fdRound ctx st wl).2.1
          (fdRound_wf hwf) (by omega)
    · rfl

/-! ### WHERE-clause stage and validator lemmas -/

theorem checkWhere_ok_stLe {ctx : Ctx} {blk : SelectBlock} {st st' : AllowedState}
    (h : checkWhereAndGetNewDependencies ctx blk st = .ok st') : stLe st st' := by
  simp only [checkWhereAndGetNewDependencies] at h
  split at h
  · cases h; exact stLe_refl _
  · rename_i cond heq
    cases hf : cond.conjuncts.foldlM (processConj ctx) (st, ([], 0)) with
    | error er => rw [hf] at h; dsimp only at h; cases h
    | ok p =>
      rw [hf] at h
      dsimp only at h
      have hp : stLe st p.1 := whereFold_ok_stLe cond.conjuncts (st, ([], 0)) p hf
      split_ifs at h
      · cases h
        exact stLe_trans hp (checkAllowedUniqueKeys_stLe ctx p.1)
      · cases h; exact hp
      · cases h
        exact stLe_trans hp (fdLoop_stLe ctx (totalBits ctx + 1) p.1 p.2.1 true)

theorem checkWhere_error_clause {ctx : Ctx} {blk : SelectBlock}
    {st : AllowedState} {er : FdError}
    (h : checkWhereAndGetNewDependencies ctx blk st = .error er) :
    er.clause = "WHERE clause" := by
  simp only [checkWhereAndGetNewDependencies] at h
  split at h
  · cases h
  · rename_i cond heq
    cases hf : cond.conjuncts.foldlM (processConj ctx) (st, ([], 0)) with
    | error er2 =>
      rw [hf] at h
      dsimp only at h
      cases h
      exact whereFold_error_clause cond.conjuncts (st, ([], 0)) hf
    | ok p =>
      rw [hf] at h
      dsimp only at h
      split_ifs at h

theorem areSelect_clause {st : AllowedState} {gb sel : List Item} {er : FdError}
    (h : areSelectListFieldsAllowed st gb sel = some er) :
    er.clause = "SELECT list" := by
  simp only [areSelectListFieldsAllowed] at h
  split at h
  · cases h; rfl
  · cases h

theorem areHaving_clause {st : AllowedState} {hav : Option Item} {gb : List Item}
    {er : FdError} (h : areHavingFieldsAllowed st hav gb = some er) :
    er.clause = "HAVING clause" := by
  simp only [areHavingFieldsAllowed] at h
  split at h
  · cases h
  · split at h
    · cases h; rfl
    · cases h

theorem validate_clause {st : AllowedState} {gb sel : List Item}
    {hav : Option Item} {er : FdError}
    (h : validateBlock st gb sel hav = some er) :
    er.clause = "SELECT list" ∨ er.clause = "HAVING clause" := by
  simp only [validateBlock] at h
  split at h
  · rename_i hs
    cases h
    exact Or.inl (areSelect_clause hs)
  · exact Or.inr (areHaving_clause h)

theorem checkFuncDepRest_ok_stLe {ctx : Ctx} {blk : SelectBlock}
    {st st' : AllowedState} {md : List Nat}
    (h : checkFuncDepRest ctx blk st md = .ok st') : stLe st st' := by
  simp only [checkFuncDepRest] at h
  cases hw : checkWhereAndGetNewDependencies ctx blk
      (collectGbFields ctx blk st md).1 with
  | error er => rw [hw] at h; dsimp only at h; cases h
  | ok st5 =>
    rw [hw] at h
    dsimp only at h
    cases hv : validateBlock st5 (collectGbFields ctx blk st md).2.2
        blk.selectList blk.having with
    | some er => rw [hv] at h; dsimp only at h; cases h
    | none =>
      rw [hv] at h
      dsimp only at h
      cases h
      exact stLe_trans (collectGbFields_stLe ctx blk st md) (checkWhere_ok_stLe hw)

theorem checkFuncDepRest_error_clause {ctx : Ctx} {blk : SelectBlock}
    {st : AllowedState} {md : List Nat} {er : FdError}
    (h : checkFuncDepRest ctx blk st md = .error er) :
    er.clause = "SELECT list" ∨ er.clause = "HAVING clause" ∨
      er.clause = "WHERE clause" := by
  simp only [checkFuncDepRest] at h
  cases hw : checkWhereAndGetNewDependencies ctx blk
      (collectGbFields ctx blk st md).1 with
  | error er2 =>
    rw [hw] at h
    dsimp only at h
    cases h
    exact Or.inr (Or.inr (checkWhere_error_clause hw))
  | ok st5 =>
    rw [hw] at h
    dsimp only at h
    cases hv : validateBlock st5 (collectGbFields ctx blk st md).2.2
        blk.selectList blk.having with
    | some er2 =>
      rw [hv] at h
      dsimp only at h
      cases h
      rcases validate_clause hv with hc | hc
      · exact Or.inl hc
      · exact Or.inr (Or.inl hc)
    | none => rw [hv] at h; dsimp only at h; cases h

/-! ### Group-By Collector and round-discipline helper lemmas -/

theorem foldl_gbmark_items (l : List Item) (acc : AllowedState × List Item) :
    (l.foldl gbMark acc).2 =
      acc.2 ++ l.filter (fun it => (gbFieldOf it).isNone) := by
  induction l generalizing acc with
  | nil => simp
  | cons x xs ih =>
    rw [List.foldl_cons, ih]
    cases hx : gbFieldOf x with
    | some c => simp [gbMark, hx]
    | none => simp [gbMark, hx]

theorem foldl_gbmark_marked {l : List Item} {it : Item} {c : Column}
    (hm : it ∈ l) (hf : gbFieldOf it = some c) (acc : AllowedState × List Item) :
    (l.foldl gbMark acc).1 c.tbl c.idx = true := by
  induction l generalizing acc with
  | nil => cases hm
  | cons x xs ih =>
    rw [List.foldl_cons]
    rcases List.mem_cons.mp hm with hx | hx
    · subst hx
      refine foldl_gbmark_stLe xs (gbMark acc it) c.tbl c.idx ?_
      simp [gbMark, hf, setBit_self]
    · exact ih hx (gbMark acc x)

theorem fdStep_not_kept {ctx : Ctx} {acc : AllowedState × List EqInfo × Bool}
    {e : EqInfo}
    (h : (colsAllowed acc.1 e.fieldsL || colsAllowed acc.1 e.fieldsR) = true) :
    (fdStep ctx acc e).2.1 = acc.2.1 := by
  simp only [fdStep]
  split_ifs with h1
  · exfalso
    simp only [Bool.and_eq_true, Bool.not_eq_true'] at h1
    rcases Bool.or_eq_true_iff.mp h with hh | hh
    · rw [h1.1] at hh; cases hh
    · rw [h1.2] at hh; cases hh
  · rfl
  · rfl
  · rfl

theorem fdFold_removed {ctx : Ctx} {st : AllowedState} (wl : List EqInfo)
    (acc : AllowedState × List EqInfo × Bool) {e : EqInfo}
    (hle : stLe st acc.1) (hnm : e ∉ acc.2.1)
    (hdep : (colsAllowed st e.fieldsL || colsAllowed st e.fieldsR) = true) :
    e ∉ (wl.foldl (fdStep ctx) acc).2.1 := by
  induction wl generalizing acc with
  | nil => exact hnm
  | cons y ys ih =>
    rw [List.foldl_cons]
    refine ih (fdStep ctx acc y)
      (stLe_trans hle (fdStep_stLe ctx acc y)) ?_
    by_cases hey : e = y
    · subst hey
      have hdep' : (colsAllowed acc.1 e.fieldsL || colsAllowed acc.1 e.fieldsR) = true := by
        rcases Bool.or_eq_true_iff.mp hdep with hh | hh
        · exact Bool.or_eq_true_iff.mpr (Or.inl (colsAllowed_mono hle hh))
        · exact Bool.or_eq_true_iff.mpr (Or.inr (colsAllowed_mono hle hh))
      rw [fdStep_not_kept hdep']
      exact hnm
    · rcases fdStep_kept ctx acc y with hk | hk
      · rw [hk]; exact hnm
      · rw [hk]
        intro hmem
        rcases List.mem_append.mp hmem with hmem | hmem
        · exact hnm hmem
        · simp only [List.mem_singleton] at hmem
          exact hey hmem

theorem fdRound_removed {ctx : Ctx} {st : AllowedState} {wl : List EqInfo}
    {e : EqInfo}
    (hdep : (colsAllowed st e.fieldsL || colsAllowed st e.fieldsR) = true) :
    e ∉ (fdRound ctx st wl).2.1 := by
  simp only [fdRound]
  split
  · exact fdFold_removed wl (st, ([], false)) (stLe_refl st) (by simp) hdep
  · exact fdFold_removed wl (st, ([], false)) (stLe_refl st) (by simp) hdep

/-! ### Claim theorems -/

/-- C1: single-field extraction from an equality succeeds exactly when
the candidate part resolves to one bare column reference, that column
is not already allowed, and the dependent part's comparison type equals
the equality's declared comparison type; on success the column is
marked allowed, and a column of a materialized derived table marks the
whole derived table allowed at once; on a comparison-type mismatch the
state is unchanged and no column becomes allowed. -/
theorem extract_new_func_dep_field_spec (ctx : Ctx) (eqCmp : Nat)
    (dp nd : Item) (st : AllowedState) :
    ((extractNewFuncDepField ctx eqCmp dp nd st).1 = true ↔
      ∃ c, nd.realField? = some c ∧ dp.cmpTypeHandler = eqCmp ∧
        st c.tbl c.idx = false) ∧
    (∀ c, nd.realField? = some c → dp.cmpTypeHandler = eqCmp →
      st c.tbl c.idx = false →
      ((extractNewFuncDepField ctx eqCmp dp nd st).1 = true ∧
       (extractNewFuncDepField ctx eqCmp dp nd st).2 c.tbl c.idx = true ∧
       ((ctx.tableOf c.tbl).isMatDerived = true →
         ∀ i, (extractNewFuncDepField ctx eqCmp dp nd st).2 c.tbl i = true))) ∧
    (dp.cmpTypeHandler ≠ eqCmp →
      extractNewFuncDepField ctx eqCmp dp nd st = (false, st)) := by
  refine ⟨⟨fun h => ?_, fun h => ?_⟩, fun c hf hcmp hbit => ?_, fun hne => ?_⟩
  · obtain ⟨c, hf, hcmp, hbit, _⟩ := extract_true_elim h
    exact ⟨c, hf, hcmp, hbit⟩
  · obtain ⟨c, hf, hcmp, hbit⟩ := h
    have h1 : (dp.cmpTypeHandler != eqCmp) = false := by simp [hcmp]
    have hres : extractNewFuncDepField ctx eqCmp dp nd st =
        if (ctx.tableOf c.tbl).isMatDerived = true then
          (true, setAllTbl (setBit st c) c.tbl)
        else (true, setBit st c) := by
      simp only [extractNewFuncDepField, hf]
      rw [if_neg (by simp [h1]), if_neg (by simp [hbit])]
    rw [hres]
    split <;> rfl
  · have h1 : (dp.cmpTypeHandler != eqCmp) = false := by simp [hcmp]
    have hres : extractNewFuncDepField ctx eqCmp dp nd st =
        if (ctx.tableOf c.tbl).isMatDerived = true then
          (true, setAllTbl (setBit st c) c.tbl)
        else (true, setBit st c) := by
      simp only [extractNewFuncDepField, hf]
      rw [if_neg (by simp [h1]), if_neg (by simp [hbit])]
    refine ⟨?_, ?_, ?_⟩
    · rw [hres]; split <;> rfl
    · rw [hres]
      split
      · exact stLe_setAllTbl _ _ _ _ (setBit_self st c)
      · exact setBit_self st c
    · intro hmd i
      rw [hres, if_pos hmd]
      exact setAllTbl_self _ _ _
  · cases hf : nd.realField? with
    | none => simp [extractNewFuncDepField, hf]
    | some c =>
      have h1 : (dp.cmpTypeHandler != eqCmp) = true := by
        simp [bne_iff_ne, hne]
      simp [extractNewFuncDepField, hf, h1]

/-- C1 witness: extracting `b` from `b = <constant>` on the empty state
succeeds and marks column 1 of table 0 allowed. -/
theorem extract_new_func_dep_field_spec_witness :
    (extractNewFuncDepField ctxW 5 (.constI 5) bW stAllFalse).1 = true ∧
    (extractNewFuncDepField ctxW 5 (.constI 5) bW stAllFalse).2 0 1 = true := by
  have h := (extract_new_func_dep_field_spec ctxW 5 (.constI 5) bW
    stAllFalse).2.1 ⟨0, 1⟩ rfl rfl rfl
  exact ⟨h.1, h.2.1⟩

/-- C10: a deferred equality both of whose stored column sets are fully
allowed is dropped from the worklist without any extraction attempt:
the Allowed-Sets, the kept list and the round's progress flag are all
unchanged, and the entry is absent from the round's surviving
worklist. -/
theorem both_sides_allowed_frame (ctx : Ctx) (e : EqInfo) :
    (∀ acc : AllowedState × List EqInfo × Bool,
      colsAllowed acc.1 e.fieldsL = true → colsAllowed acc.1 e.fieldsR = true →
      fdStep ctx acc e = (acc.1, acc.2.1, acc.2.2)) ∧
    (∀ st wl, colsAllowed st e.fieldsL = true → colsAllowed st e.fieldsR = true →
      e ∉ (fdRound ctx st wl).2.1) := by
  constructor
  · intro acc hL hR
    simp only [fdStep, hL, hR]
    simp
  · intro st wl hL hR
    exact fdRound_removed (by simp [hL, hR])

/-- C10 witness: with both columns of table 0 allowed, processing the
deferred equality `x = y` leaves state, kept list and flag unchanged,
and the entry is dropped from a singleton round. -/
theorem both_sides_allowed_frame_witness :
    fdStep ctx5 (stT0, ([], false)) e5 = (stT0, ([], false)) ∧
    e5 ∉ (fdRound ctx5 stT0 [e5]).2.1 := by
  have h := both_sides_allowed_frame ctx5 e5
  exact ⟨h.1 (stT0, ([], false)) rfl rfl, h.2 stT0 [e5] rfl rfl⟩

/-- C4 counterexample: the claim says an equality containing a
non-deterministic call on either side never causes a new column to
become allowed.  In `WHERE c = a AND b = a + RAND()` with `a` allowed,
the second equality contains `RAND()` inside its right side, yet the
WHERE stage ends with `b` (table 1, column 0) allowed; removing that
equality leaves `b` not allowed, so the `RAND()`-containing equality is
what produced it.  The source guard checks only whether a side's top
node is a non-deterministic function call, and the deferred fixed-point
loop re-examines only the stored column sets. -/
theorem nondet_guard_cex :
    okBit (checkWhereAndGetNewDependencies ctx4 blk4 st4) 1 0 = true ∧
    okBit (checkWhereAndGetNewDependencies ctx4 blk4b st4) 1 0 = false := by
  exact ⟨by decide, by decide⟩

/-- C4 amended: the guard skips an equality exactly when one of its
sides is itself a non-deterministic function call at its top node; such
an equality is skipped without error, is not deferred, and leaves the
Allowed-Sets unchanged (so it never causes a new column to become
allowed); a non-deterministic call strictly below the top of a side
does not trigger the guard. -/
theorem nondet_guard_top_level (ctx : Ctx) (e : EqItem) (st : AllowedState)
    (eqs : List EqInfo)
    (h : (e.lhs.isNondetFunc || e.rhs.isNondetFunc) = true) :
    checkEqualityOnNewFuncDep ctx e st eqs = .ok (st, eqs) := by
  simp [checkEqualityOnNewFuncDep, h]

/-- C4 amended witness: `b = RAND()` is skipped with no error, no
deferral and no state change. -/
theorem nondet_guard_top_level_witness :
    checkEqualityOnNewFuncDep ctx4 eqBRand st4 [] = .ok (st4, []) :=
  nondet_guard_top_level ctx4 eqBRand st4 [] rfl

/-- C2: Key Closure correctness: for every leaf table whose Allowed-Set
is not already full, if the primary key's columns are all allowed, or
some unique key's columns are all allowed, then after one run of
`check_allowed_unique_keys` every column of that table is allowed; and
the run returns `true` exactly when some table's Allowed-Set
changed. -/
theorem check_allowed_unique_keys_spec (ctx : Ctx) (st : AllowedState) :
    (∀ t, t ∈ ctx.leafTables →
      isSetAllT (ctx.nCols t) st t = false →
      keyHit ctx st t = true →
      ∀ i, i < ctx.nCols t → (checkAllowedUniqueKeys ctx st).2 t i = true) ∧
    ((checkAllowedUniqueKeys ctx st).1 = true ↔
      ∃ t i, (checkAllowedUniqueKeys ctx st).2 t i ≠ st t i) := by
  constructor
  · intro t htm _ hk i hi
    exact checkKeys_complete htm hk i hi
  · constructor
    · intro h
      obtain ⟨t, _, i, _, hfalse, htrue⟩ := checkKeys_progress h
      exact ⟨t, i, by rw [htrue, hfalse]; simp⟩
    · intro ⟨t, i, hne⟩
      by_contra hflag
      have hf : (checkAllowedUniqueKeys ctx st).1 = false := by
        simpa using hflag
      rw [checkKeys_false_eq hf] at hne
      exact hne rfl

/-- C2 witness: table 0 of `ctxC2` has a unique key on its allowed
column 0; one run marks its column 1 allowed and reports a change. -/
theorem check_allowed_unique_keys_spec_witness :
    (checkAllowedUniqueKeys ctxC2 stOne).2 0 1 = true ∧
    (checkAllowedUniqueKeys ctxC2 stOne).1 = true := by
  have h := check_allowed_unique_keys_spec ctxC2 stOne
  refine ⟨h.1 0 (by simp [ctxC2]) (by decide) (by decide) 1 (by decide), ?_⟩
  refine h.2.mpr ⟨0, 1, ?_⟩
  have h1 := h.1 0 (by simp [ctxC2]) (by decide) (by decide) 1 (by decide)
  rw [h1]
  decide

/-- C5 counterexample: the claim says every deferred equality is
removed from the worklist after the round regardless of the extraction
outcome.  A deferred equality with neither stored side satisfied
(`x = y` with neither column allowed) survives the round unchanged: the
source's inner loop reaches `continue` before `li.remove()`. -/
theorem deferred_removal_cex :
    (fdRound ctx5 stAllFalse [e5]).2.1 = [e5] := by decide

/-- C5 amended: in every round each still-deferred equality's stored
column sets are re-evaluated against the current Allowed-Sets; the
surviving worklist is a subset of the round's input; an equality with
at least one side satisfied at the round's start is removed regardless
of the extraction outcome; an equality with exactly one side satisfied
gets an extraction attempt with that side as the dependent part;
equalities with neither side satisfied remain for later rounds. -/
theorem deferred_round_discipline (ctx : Ctx) (st : AllowedState)
    (wl : List EqInfo) :
    (∀ e, e ∈ (fdRound ctx st wl).2.1 → e ∈ wl) ∧
    (∀ e, (colsAllowed st e.fieldsL || colsAllowed st e.fieldsR) = true →
      e ∉ (fdRound ctx st wl).2.1) ∧
    (∀ e, colsAllowed st e.fieldsL = true → colsAllowed st e.fieldsR = false →
      fdRound ctx st [e] =
        ((checkAllowedUniqueKeys ctx
            (extractNewFuncDepField ctx e.eq.cmp e.eq.lhs e.eq.rhs st).2).2,
         [],
         ((extractNewFuncDepField ctx e.eq.cmp e.eq.lhs e.eq.rhs st).1 ||
          (checkAllowedUniqueKeys ctx
            (extractNewFuncDepField ctx e.eq.cmp e.eq.lhs e.eq.rhs st).2).1))) ∧
    (∀ e, colsAllowed st e.fieldsL = false → colsAllowed st e.fieldsR = true →
      fdRound ctx st [e] =
        ((checkAllowedUniqueKeys ctx
            (extractNewFuncDepField ctx e.eq.cmp e.eq.rhs e.eq.lhs st).2).2,
         [],
         ((extractNewFuncDepField ctx e.eq.cmp e.eq.rhs e.eq.lhs st).1 ||
          (checkAllowedUniqueKeys ctx
            (extractNewFuncDepField ctx e.eq.cmp e.eq.rhs e.eq.lhs st).2).1))) ∧
    (∀ e, colsAllowed st e.fieldsL = false → colsAllowed st e.fieldsR = false →
      fdRound ctx st [e] =
        ((checkAllowedUniqueKeys ctx st).2, [e],
          (checkAllowedUniqueKeys ctx st).1)) := by
  refine ⟨fun e he => fdRound_wl_mem ctx st wl he,
    fun e hdep => fdRound_removed hdep, fun e hL hR => ?_, fun e hL hR => ?_,
    fun e hL hR => ?_⟩
  · simp [fdRound, fdStep, hL, hR]
  · simp [fdRound, fdStep, hL, hR]
  · simp [fdRound, fdStep, hL, hR]

/-- C5 amended witness: with column 0 of table 0 allowed, the deferred
equality `x = y` (stored sides `x` and `y`) has its left side
satisfied: it is removed from a singleton round, which attempts
extraction with the left side as dependent part. -/
theorem deferred_round_discipline_witness :
    e5 ∉ (fdRound ctx5 stOne [e5]).2.1 ∧
    fdRound ctx5 stOne [e5] =
      ((checkAllowedUniqueKeys ctx5
          (extractNewFuncDepField ctx5 e5.eq.cmp e5.eq.lhs e5.eq.rhs stOne).2).2,
       [],
       ((extractNewFuncDepField ctx5 e5.eq.cmp e5.eq.lhs e5.eq.rhs stOne).1 ||
        (checkAllowedUniqueKeys ctx5
          (extractNewFuncDepField ctx5 e5.eq.cmp e5.eq.lhs e5.eq.rhs stOne).2).1)) := by
  have h := deferred_round_discipline ctx5 stOne [e5]
  exact ⟨h.2.1 e5 rfl, h.2.2.1 e5 rfl rfl⟩

/-- C6 counterexample: the claim says each round either shrinks the
worklist or ends the loop.  With table 0's unique key (columns 0 and 1)
already covered but its column 2 not yet allowed, a round over the
deferred equality `x = y` (columns of table 1, neither allowed) removes
nothing — yet Key Closure makes progress on table 0, so the round
reports progress and the loop continues with the worklist unchanged and
non-empty. -/
theorem worklist_shrink_cex :
    (fdRound ctx6 st6 [e6]).2.1 = [e6] ∧ (fdRound ctx6 st6 [e6]).2.2 = true := by
  exact ⟨by decide, by decide⟩

/-- C6 amended: the fixed-point loop terminates.  Each continuing round
strictly grows the set of allowed bits, which is bounded by the total
column count, so with fuel `totalBits + 1` the loop always exits
through its own guard (for well-formed inputs).  After a round whose
inner pass produced no new allowed column, Key Closure runs once and
its progress is the round's progress; and a loop invoked without
progress ends at once, discarding the remaining deferred
equalities. -/
theorem fd_loop_termination (ctx : Ctx) (st : AllowedState) (wl : List EqInfo)
    (hwfl : wfLeaves ctx = true) (hwf : wl.all (wfEntry ctx) = true) :
    (fdLoop ctx (totalBits ctx + 1) st wl true).2 = true ∧
    (∀ f st' wl', fdLoop ctx f st' wl' false = (st', true)) ∧
    (∀ st' wl',
      ((wl'.foldl (fdStep ctx) (st', ([], false))).2.2 = false →
        fdRound ctx st' wl' =
          ((checkAllowedUniqueKeys ctx
              (wl'.foldl (fdStep ctx) (st', ([], false))).1).2,
           (wl'.foldl (fdStep ctx) (st', ([], false))).2.1,
           (checkAllowedUniqueKeys ctx
              (wl'.foldl (fdStep ctx) (st', ([], false))).1).1))) := by
  refine ⟨?_, fun f st' wl' => fdLoop_false ctx f st' wl', fun st' wl' hp => ?_⟩
  · refine fdLoop_clean (totalBits ctx + 1) st wl hwfl hwf ?_
    omega
  · simp [fdRound, hp]

/-- C6 amended witness: on a worklist holding one well-formed deferred
equality over the two columns of the single two-column table, the loop
with fuel `totalBits + 1` exits through its own guard. -/
theorem fd_loop_termination_witness :
    (fdLoop ctx5 (totalBits ctx5 + 1) stAllFalse [e5] true).2 = true :=
  (fd_loop_termination ctx5 stAllFalse [e5] (by decide) (by decide)).1

theorem setUpdateTableFields_stLe (blk : SelectBlock) (st : AllowedState) :
    stLe st (setUpdateTableFields blk st) := by
  simp only [setUpdateTableFields]
  split
  · split
    · exact stLe_foldl_setAllTbl _ _
    · exact stLe_refl _
  · exact stLe_refl _

/-- C3: monotonicity invariant: after the per-block clearing, every
operation of the analyzer only grows the Allowed-Sets — the Group-By
Collector, Key Closure, Derived-Table Closure, single-field extraction,
equality processing, the fixed-point round and loop, the whole WHERE
stage, the UPDATE special case and the whole post-clearing analysis
body each map a state to a pointwise-larger one, so a bit once set
stays set until the block's analysis ends. -/
theorem allowed_sets_monotone (ctx : Ctx) (blk : SelectBlock) :
    (∀ st md, stLe st (collectGbFields ctx blk st md).1) ∧
    (∀ st, stLe st (checkAllowedUniqueKeys ctx st).2) ∧
    (∀ st md, stLe st (checkAllowedMatDerived ctx md st).2.2) ∧
    (∀ st eqCmp dp nd, stLe st (extractNewFuncDepField ctx eqCmp dp nd st).2) ∧
    (∀ e st eqs out,
      checkEqualityOnNewFuncDep ctx e st eqs = .ok out → stLe st out.1) ∧
    (∀ st wl, stLe st (fdRound ctx st wl).1) ∧
    (∀ f st wl ext, stLe st (fdLoop ctx f st wl ext).1) ∧
    (∀ st st', checkWhereAndGetNewDependencies ctx blk st = .ok st' →
      stLe st st') ∧
    (∀ st, stLe st (setUpdateTableFields blk st)) ∧
    (∀ st st' md, checkFuncDepRest ctx blk st md = .ok st' → stLe st st') := by
  refine ⟨fun st md => collectGbFields_stLe ctx blk st md,
    fun st => checkAllowedUniqueKeys_stLe ctx st,
    fun st md => checkAllowedMatDerived_stLe ctx md st,
    fun st eqCmp dp nd => extract_stLe ctx eqCmp dp nd st,
    fun e st eqs out h => checkEquality_ok_stLe h,
    fun st wl => fdRound_stLe ctx st wl,
    fun f st wl ext => fdLoop_stLe ctx f st wl ext,
    fun st st' h => checkWhere_ok_stLe h,
    fun st => setUpdateTableFields_stLe blk st,
    fun st st' md h => checkFuncDepRest_ok_stLe h⟩

/-- C3 witness: the post-clearing analysis body of a block with no
GROUP BY, no WHERE and no HAVING keeps the allowed bit of column 0 of
table 0 set. -/
theorem allowed_sets_monotone_witness :
    okBit (checkFuncDepRest ctxW blkW stOne []) 0 0 = true :=
  (allowed_sets_monotone ctxW blkW).2.2.2.2.2.2.2.2.2 stOne stOne [] rfl 0 0 rfl

/-- C7: trivial pass: an analyzed block (leaf tables present, not a
fake block) with an empty GROUP BY list and no HAVING marks every
leaf-table column allowed; with no outer join context it returns
success immediately regardless of the SELECT-list content; under an
aggregating outer block it still proceeds through the closure phases
and the Validator on the fully-marked state. -/
theorem trivial_pass_spec (ctx : Ctx) (blk : SelectBlock) (st : AllowedState)
    (hleaf : ctx.leafTables.isEmpty = false)
    (hn1 : (blk.selectNumber == UINT_MAX_N) = false)
    (hn2 : (blk.selectNumber == INT_MAX_N) = false)
    (hg : blk.groupList = []) (hh : blk.having = none) :
    (outerHasJoin blk = false →
      checkFuncDep ctx blk st =
        .ok (ctx.leafTables.foldl setAllTbl
          (setUpdateTableFields blk (ctx.leafTables.foldl clearTbl st))) ∧
      (∀ t, t ∈ ctx.leafTables → ∀ i,
        (ctx.leafTables.foldl setAllTbl
          (setUpdateTableFields blk (ctx.leafTables.foldl clearTbl st)))
          t i = true)) ∧
    (outerHasJoin blk = true →
      checkFuncDep ctx blk st =
        checkFuncDepRest ctx blk
          (ctx.leafTables.foldl setAllTbl
            (setUpdateTableFields blk (ctx.leafTables.foldl clearTbl st)))
          (matDerivedOf ctx)) := by
  have hcond : (ctx.leafTables.isEmpty || blk.selectNumber == UINT_MAX_N ||
      blk.selectNumber == INT_MAX_N) = false := by
    simp [hleaf, hn1, hn2]
  constructor
  · intro hoj
    have hnc : needCheckB blk = false := by
      simp [needCheckB, hg, hh, hoj]
    constructor
    · simp [checkFuncDep, hcond, hg, hh, hnc]
    · intro t htm i
      exact foldl_setAllTbl_mem htm _ i
  · intro hoj
    have hnc : needCheckB blk = true := by
      simp [needCheckB, hoj]
    simp [checkFuncDep, hcond, hg, hh, hnc]

/-- C7 witness: block `blkW` (no GROUP BY, no HAVING, no outer block)
over the two-column table passes trivially with both columns marked
allowed. -/
theorem trivial_pass_spec_witness :
    okBit (checkFuncDep ctxW blkW stAllFalse) 0 1 = true := by
  have h := (trivial_pass_spec ctxW blkW stAllFalse rfl rfl rfl rfl rfl).1 rfl
  rw [h.1]
  exact h.2 0 (by simp [ctxW]) 1

theorem findSome?_first {α β : Type} (f : α → Option β) (pre : List α)
    (bad : α) (post : List α) {v : β} (hpre : ∀ x, x ∈ pre → f x = none)
    (hbad : f bad = some v) :
    (pre ++ bad :: post).findSome? f = some v := by
  induction pre with
  | nil => simp [List.findSome?, hbad]
  | cons y ys ih =>
    have hy : f y = none := hpre y (by simp)
    rw [List.cons_append, List.findSome?_cons]
    rw [hy]
    exact ih (fun x hx => hpre x (by simp [hx]))

/-- C8: error handling: every error the analyzer raises is the single
`NonGroupingFieldUsed` record with clause name among "SELECT list",
"HAVING clause" and "WHERE clause"; the SELECT list is validated before
HAVING, so a SELECT-list violation is reported with clause
"SELECT list" and the HAVING expression is then not consulted; and the
SELECT-list check reports the first violating expression. -/
theorem error_handling_spec :
    (∀ ctx blk st er, checkFuncDep ctx blk st = .error er →
      er.clause = "SELECT list" ∨ er.clause = "HAVING clause" ∨
        er.clause = "WHERE clause") ∧
    (∀ st gb sel hav er, areSelectListFieldsAllowed st gb sel = some er →
      er.clause = "SELECT list" ∧
      validateBlock st gb sel hav = some er ∧
      (∀ hav', validateBlock st gb sel hav' = validateBlock st gb sel hav)) ∧
    (∀ st gb pre bad post off,
      (∀ x, x ∈ pre → exclOnGrouping st gb x = none) →
      exclOnGrouping st gb bad = some off →
      areSelectListFieldsAllowed st gb (pre ++ bad :: post) =
        some ⟨off.real.fullName, "SELECT list"⟩) := by
  refine ⟨fun ctx blk st er h => ?_, fun st gb sel hav er h => ?_,
    fun st gb pre bad post off hpre hbad => ?_⟩
  · simp only [checkFuncDep] at h
    split_ifs at h <;> exact checkFuncDepRest_error_clause h
  · refine ⟨areSelect_clause h, by simp [validateBlock, h], fun hav' => ?_⟩
    simp [validateBlock, h]
  · simp only [areSelectListFieldsAllowed]
    rw [findSome?_first (exclOnGrouping st gb) pre bad post hpre hbad]

/-- C8 witness: `SELECT b FROM t GROUP BY a` (no dependency between `a`
and `b`) fails, and the reported clause is among the three clause
names. -/
theorem error_handling_spec_witness :
    FdError.clause ⟨"b", "SELECT list"⟩ = "SELECT list" ∨
    FdError.clause ⟨"b", "SELECT list"⟩ = "HAVING clause" ∨
    FdError.clause ⟨"b", "SELECT list"⟩ = "WHERE clause" :=
  error_handling_spec.1 ctxW blkW8 stAllFalse ⟨"b", "SELECT list"⟩ rfl

/-- C9 counterexample: the claim says the Group-By Collector always
runs Key Closure once after processing the GROUP BY list.  On a block
with an empty GROUP BY list, `collect_gb_fields` returns before the
closure calls: with column 0 of table 0 allowed and a unique key on
that column, the collector leaves column 1 not allowed, while one Key
Closure run would have marked it. -/
theorem collect_gb_closure_cex :
    (collectGbFields ctx9 blk9 stOne []).1 0 1 = false ∧
    (checkAllowedUniqueKeys ctx9 stOne).2 0 1 = true := by
  exact ⟨by decide, by decide⟩

/-- C9 amended: on a block with a non-empty GROUP BY list, the
collector marks each bare-column (or reference-to-column) grouping
expression's column allowed, collects exactly the non-column grouping
expressions in order, and then runs Key Closure once and Derived-Table
Closure once on the marked state; on an empty GROUP BY list it returns
immediately, leaving the state and the pending derived-table list
unchanged and running neither closure. -/
theorem collect_gb_fields_spec (ctx : Ctx) (blk : SelectBlock)
    (st : AllowedState) (md : List Nat) :
    (blk.groupList = [] → collectGbFields ctx blk st md = (st, md, [])) ∧
    (blk.groupList ≠ [] →
      (collectGbFields ctx blk st md).1 =
        (checkAllowedMatDerived ctx md
          (checkAllowedUniqueKeys ctx
            (blk.groupList.foldl gbMark (st, [])).1).2).2.2 ∧
      (collectGbFields ctx blk st md).2.1 =
        (checkAllowedMatDerived ctx md
          (checkAllowedUniqueKeys ctx
            (blk.groupList.foldl gbMark (st, [])).1).2).2.1 ∧
      (collectGbFields ctx blk st md).2.2 =
        blk.groupList.filter (fun it => (gbFieldOf it).isNone)) ∧
    (∀ it c, it ∈ blk.groupList → gbFieldOf it = some c →
      (collectGbFields ctx blk st md).1 c.tbl c.idx = true) := by
  refine ⟨fun hg => ?_, fun hg => ?_, fun it c hm hf => ?_⟩
  · simp [collectGbFields, hg]
  · have hne : blk.groupList.isEmpty = false := by
      simpa [List.isEmpty_iff] using hg
    refine ⟨by simp [collectGbFields, hne], by simp [collectGbFields, hne], ?_⟩
    simp only [collectGbFields, hne, Bool.false_eq_true, if_false]
    exact foldl_gbmark_items blk.groupList (st, [])
  · have hne : blk.groupList.isEmpty = false := by
      cases hgl : blk.groupList with
      | nil => rw [hgl] at hm; cases hm
      | cons a as => rfl
    simp only [collectGbFields, hne, Bool.false_eq_true, if_false]
    have hmark := foldl_gbmark_marked hm hf (st, [])
    have h1 := checkAllowedUniqueKeys_stLe ctx
      (blk.groupList.foldl gbMark (st, [])).1 c.tbl c.idx hmark
    exact checkAllowedMatDerived_stLe ctx md _ c.tbl c.idx h1

/-- C9 amended witness: `GROUP BY a` marks column 0 of table 0
allowed. -/
theorem collect_gb_fields_spec_witness :
    (collectGbFields ctxW blkW9 stAllFalse []).1 0 0 = true :=
  (collect_gb_fields_spec ctxW blkW9 stAllFalse []).2.2 aW ⟨0, 0⟩
    (by simp [blkW9]) rfl
